import Mathlib

/-!
Verification development for the codesum interactive file-selection tool.

The Python sources are embedded shallowly:
* `Node`/`NodeMap` model the recursive dict tree built by
  `file_utils.build_tree_with_folders`: a directory maps names to subtrees and a
  file name maps to its absolute path string.  `NodeMap` is an association list
  of children, declared mutually with `Node` so that recursion over the nested
  tree is structural; `NodeMap.toList` bridges to ordinary lists.
* `flatten_tree_with_folders_collapsed` mirrors the function of that name in
  `file_utils.py`; `folder_has_single_file` mirrors `_folder_has_single_file`.
  The recursion is driven by an explicit fuel argument (`flattenFuel`); any two
  sufficient fuels agree, and all theorems are proved for every fuel, so the
  fuel is semantically invisible.
* Selection-engine transitions from `tui.py` are modelled as pure functions on a
  `SelState` record (Python sets become lists with set-like operations over
  membership).
* Persistence helpers from `summary_utils.py` become pure functions over
  explicit store values, with the filesystem abstracted as predicates.

Python's `sorted` on dict items is modelled by insertion sort over the key order
`keyLe` (code-point lexicographic order on the key's characters), matching
Python string comparison; dict keys are unique, so only keys decide the order.
-/

/-- Code-point lexicographic order on character lists, as Python compares strings. -/
def lexLe : List Char → List Char → Bool
  | [], _ => true
  | _ :: _, [] => false
  | a :: as, b :: bs =>
    if a.toNat < b.toNat then true
    else if b.toNat < a.toNat then false
    else lexLe as bs

/-- Key order used to model Python's `sorted(d.items())`. -/
def keyLe {α : Type} (a b : String × α) : Prop := lexLe a.1.data b.1.data = true

instance {α : Type} : DecidableRel (keyLe (α := α)) := fun a b => by
  unfold keyLe; infer_instance

/-- `sorted(d.items())` on a dict modelled as an association list. -/
def sortByKey {α : Type} (l : List (String × α)) : List (String × α) :=
  l.insertionSort keyLe

instance {α : Type} : IsTotal (String × α) keyLe :=
  ⟨by
    have core : ∀ x y : List Char, lexLe x y = true ∨ lexLe y x = true := by
      intro x
      induction x with
      | nil => intro y; left; rfl
      | cons a as ih =>
        intro y
        cases y with
        | nil => right; rfl
        | cons b bs =>
          simp only [lexLe]
          rcases Nat.lt_trichotomy a.toNat b.toNat with h | h | h
          · left; simp [h]
          · have h1 : ¬ a.toNat < b.toNat := by omega
            have h2 : ¬ b.toNat < a.toNat := by omega
            simp only [if_neg h1, if_neg h2]
            exact ih bs
          · right; simp [h]
    intro a b
    exact core a.1.data b.1.data⟩

instance {α : Type} : IsTrans (String × α) keyLe :=
  ⟨by
    have core : ∀ x y z : List Char,
        lexLe x y = true → lexLe y z = true → lexLe x z = true := by
      intro x
      induction x with
      | nil => intro y z _ _; rfl
      | cons a as ih =>
        intro y z hxy hyz
        cases y with
        | nil => simp [lexLe] at hxy
        | cons b bs =>
          cases z with
          | nil => simp [lexLe] at hyz
          | cons c cs =>
            simp only [lexLe] at hxy hyz ⊢
            rcases Nat.lt_trichotomy a.toNat b.toNat with hab | hab | hab
            · rcases Nat.lt_trichotomy b.toNat c.toNat with hbc | hbc | hbc
              · have h : a.toNat < c.toNat := by omega
                simp [h]
              · have h : a.toNat < c.toNat := by omega
                simp [h]
              · have h1 : ¬ b.toNat < c.toNat := by omega
                rw [if_neg h1, if_pos hbc] at hyz
                exact absurd hyz (by decide)
            · rcases Nat.lt_trichotomy b.toNat c.toNat with hbc | hbc | hbc
              · have h : a.toNat < c.toNat := by omega
                simp [h]
              · have h1 : ¬ a.toNat < c.toNat := by omega
                have h2 : ¬ c.toNat < a.toNat := by omega
                have h3 : ¬ a.toNat < b.toNat := by omega
                have h4 : ¬ b.toNat < a.toNat := by omega
                have h5 : ¬ b.toNat < c.toNat := by omega
                have h6 : ¬ c.toNat < b.toNat := by omega
                rw [if_neg h3, if_neg h4] at hxy
                rw [if_neg h5, if_neg h6] at hyz
                rw [if_neg h1, if_neg h2]
                exact ih bs cs hxy hyz
              · have h1 : ¬ b.toNat < c.toNat := by omega
                rw [if_neg h1, if_pos hbc] at hyz
                exact absurd hyz (by decide)
            · have h1 : ¬ a.toNat < b.toNat := by omega
              rw [if_neg h1, if_pos hab] at hxy
              exact absurd hxy (by decide)
    intro a b c
    exact core a.1.data b.1.data c.1.data⟩

mutual
/-- A node of the file tree of `file_utils.build_tree_with_folders`: a file leaf
stores the absolute path string, a directory stores its children. -/
inductive Node where
  | file (absPath : String)
  | dir (children : NodeMap)
deriving Repr
/-- Children of a directory: an association list from entry name to node,
in dict insertion order. -/
inductive NodeMap where
  | nil
  | cons (key : String) (node : Node) (rest : NodeMap)
deriving Repr
end

/-- View of the children as an ordinary list, as Python's `tree.items()`. -/
def NodeMap.toList : NodeMap → List (String × Node)
  | .nil => []
  | .cons k n rest => (k, n) :: NodeMap.toList rest

/-- Number of constructors of a children map; used only as a recursion fuel bound. -/
def NodeMap.size : NodeMap → Nat
  | .nil => 1
  | .cons _ (.file _) rest => 2 + NodeMap.size rest
  | .cons _ (.dir sub) rest => 3 + NodeMap.size sub + NodeMap.size rest

/-- `isinstance(value, dict)` test used throughout `file_utils.py`. -/
def Node.isDir : Node → Bool
  | .dir _ => true
  | .file _ => false

/-- Absolute path stored in a file leaf (directories never reach this in the code). -/
def Node.fileAbs : Node → String
  | .file v => v
  | .dir _ => ""

/-- One display row produced by the flattener:
`(display_name, path, is_folder, full_path_if_file)` in `file_utils.py`. -/
structure DisplayRow where
  displayName : String
  rowPath : String
  isFolder : Bool
  fullPath : Option String
deriving DecidableEq, Repr

/-- `_folder_has_single_file` from `file_utils.py`: exactly one file and
no subdirectories among the children. -/
def folder_has_single_file (children : List (String × Node)) : Bool :=
  (children.countP fun kv => !kv.2.isDir) == 1 &&
  (children.countP fun kv => kv.2.isDir) == 0

/-- The `for sub_key, sub_value in sub_tree.items(): if not isinstance(...): ... break`
loop in `flatten_tree_with_folders_collapsed`: the first file entry of a folder. -/
def firstFileEntry (children : List (String × Node)) : Option (String × String) :=
  children.findSome? fun kv =>
    match kv.2 with
    | .file v => some (kv.1, v)
    | .dir _ => none

/-- Fuel-indexed body of `flatten_tree_with_folders_collapsed`; the fuel only
bounds the recursion depth (any fuel of at least the tree depth gives the same
result, and `NodeMap.size` always suffices). -/
def flattenFuel (fuel : Nat) (tree : NodeMap) (pre : String)
    (collapsed : List String) : List DisplayRow :=
  match fuel with
  | 0 => []
  | fuel + 1 =>
    (sortByKey (tree.toList.filter fun kv => !kv.2.isDir)).map
      (fun kv => ⟨pre ++ kv.1, pre ++ kv.1, false, some kv.2.fileAbs⟩) ++
    (sortByKey (tree.toList.filter fun kv => kv.2.isDir)).flatMap
      (fun kv =>
        match kv with
        | (_, Node.file _) => []
        | (key, Node.dir sub) =>
          if folder_has_single_file sub.toList then
            match firstFileEntry sub.toList with
            | some (sk, v) =>
              [⟨pre ++ key ++ "/" ++ sk, pre ++ key ++ "/" ++ sk, false, some v⟩]
            | none => []
          else
            ⟨pre ++ key ++ "/", pre ++ key, true, none⟩ ::
            (if (pre ++ key) ∈ collapsed then []
             else flattenFuel fuel sub (pre ++ key ++ "/") collapsed))

/-- `flatten_tree_with_folders_collapsed` from `file_utils.py`: file rows first
(sorted), then sorted folders; a folder with exactly one file and no subfolders
is displayed as that single file; otherwise a folder row, and its children only
when the folder path is not in the collapsed set. -/
def flatten_tree_with_folders_collapsed
    (tree : NodeMap) (pre : String) (collapsed : List String) :
    List DisplayRow :=
  flattenFuel tree.size tree pre collapsed

example :
    flatten_tree_with_folders_collapsed
      (.cons "a.py" (.file "/r/a.py")
        (.cons "sub" (.dir (.cons "b.py" (.file "/r/sub/b.py") .nil))
          (.cons "c" (.dir (.cons "d" (.dir .nil)
            (.cons "e.py" (.file "/r/c/e.py") .nil))) .nil)))
      "" [] =
    [⟨"a.py", "a.py", false, some "/r/a.py"⟩,
     ⟨"c/", "c", true, none⟩,
     ⟨"c/e.py", "c/e.py", false, some "/r/c/e.py"⟩,
     ⟨"c/d/", "c/d", true, none⟩,
     ⟨"sub/b.py", "sub/b.py", false, some "/r/sub/b.py"⟩] := by
  decide

example :
    flatten_tree_with_folders_collapsed
      (.cons "a.py" (.file "/r/a.py")
        (.cons "sub" (.dir (.cons "b.py" (.file "/r/sub/b.py") .nil))
          (.cons "c" (.dir (.cons "d" (.dir .nil)
            (.cons "e.py" (.file "/r/c/e.py") .nil))) .nil)))
      "" ["c"] =
    [⟨"a.py", "a.py", false, some "/r/a.py"⟩,
     ⟨"c/", "c", true, none⟩,
     ⟨"sub/b.py", "sub/b.py", false, some "/r/sub/b.py"⟩] := by
  decide

/-- Claim-side flattener, written from the specification text: partition entries
into files and subdirectories; emit file rows first, alphabetically; then for
each subdirectory alphabetically, a subdirectory containing exactly one file and
zero subdirectories contributes only that file row (folder segment as path
prefix in the display name), any other subdirectory contributes a folder row
followed by its descendants' rows exactly when its row path is not collapsed. -/
def flattenSpecFuel (fuel : Nat) (tree : NodeMap) (pre : String)
    (collapsed : List String) : List DisplayRow :=
  match fuel with
  | 0 => []
  | fuel + 1 =>
    (sortByKey (tree.toList.filter fun kv => !kv.2.isDir)).map
      (fun kv => ⟨pre ++ kv.1, pre ++ kv.1, false, some kv.2.fileAbs⟩) ++
    (sortByKey (tree.toList.filter fun kv => kv.2.isDir)).flatMap
      (fun kv =>
        match kv with
        | (_, Node.file _) => []
        | (key, Node.dir sub) =>
          if (sub.toList.filter fun e => !e.2.isDir).length == 1 &&
             (sub.toList.filter fun e => e.2.isDir).length == 0 then
            match sub.toList.filter (fun e => !e.2.isDir) with
            | [(sk, Node.file v)] =>
              [⟨pre ++ key ++ "/" ++ sk, pre ++ key ++ "/" ++ sk, false, some v⟩]
            | _ => []
          else
            ⟨pre ++ key ++ "/", pre ++ key, true, none⟩ ::
            (if (pre ++ key) ∈ collapsed then []
             else flattenSpecFuel fuel sub (pre ++ key ++ "/") collapsed))

/-- Entry point of the claim-side flattener. -/
def flattenPerSpec (tree : NodeMap) (pre : String) (collapsed : List String) :
    List DisplayRow :=
  flattenSpecFuel tree.size tree pre collapsed

/-- Dict lookup on children, as Python's `tree[part]`. -/
def lookupNode : NodeMap → String → Option Node
  | .nil, _ => none
  | .cons k n rest, key => if k == key then some n else lookupNode rest key

/-- Navigate a tree along a list of path segments, succeeding only when every
segment names a directory entry. -/
def subtreeAt : NodeMap → List String → Option NodeMap
  | t, [] => some t
  | t, s :: rest =>
    match lookupNode t s with
    | some (Node.dir sub) => subtreeAt sub rest
    | _ => none

/-- The keys of a children map, in order. -/
def NodeMap.keys : NodeMap → List String
  | .nil => []
  | .cons k _ rest => k :: NodeMap.keys rest

/-- Well-formedness of a tree as produced from a real filesystem walk: entry
names are unique per level and contain no path separator. -/
def NodeMap.valid : NodeMap → Bool
  | .nil => true
  | .cons k (.file _) rest =>
    !(NodeMap.keys rest).contains k && !(k.data.contains '/') && NodeMap.valid rest
  | .cons k (.dir sub) rest =>
    !(NodeMap.keys rest).contains k && !(k.data.contains '/') &&
    NodeMap.valid sub && NodeMap.valid rest

/-- Row path of the folder reached from display prefix `pre` along `segs`,
as the flattener builds it. -/
def pathUnder (pre : String) : List String → String
  | [] => pre
  | [k] => pre ++ k
  | k :: rest => pathUnder (pre ++ k ++ "/") rest

/-- `rowPath` lies strictly below `folderPath` in the displayed hierarchy. -/
def isUnderFolder (folderPath rowPath : String) : Bool :=
  (folderPath ++ "/").data.isPrefixOf rowPath.data

/- ----------------------------------------------------------------- -/
/- Selection-engine state and transitions (`tui.py`, `_curses_main`). -/
/- ----------------------------------------------------------------- -/

/-- In-memory selection state of the engine: `selected_paths` and
`compressed_paths`, Python sets modelled as lists (membership is what matters). -/
structure SelState where
  selected : List String
  compressed : List String
deriving DecidableEq, Repr

/-- Python `set.add`. -/
def setAdd (s : List String) (x : String) : List String :=
  if x ∈ s then s else s ++ [x]

/-- Python `set.remove` (on a duplicate-free list). -/
def setRemove (s : List String) (x : String) : List String :=
  s.filter (fun y => y != x)

/-- Python `set.difference_update`. -/
def setDiff (s t : List String) : List String :=
  s.filter (fun y => !(t.contains y))

/-- Python `set.update`. -/
def setUnion (s t : List String) : List String :=
  s ++ t.filter (fun y => !(s.contains y))

/-- SPACE on a file row (`tui.py` lines 465-481): remove any compressed marking,
then toggle membership in `selected_paths`. -/
def space_toggle_file (st : SelState) (resolvedPath : String) : SelState :=
  let comp :=
    if resolvedPath ∈ st.compressed then setRemove st.compressed resolvedPath
    else st.compressed
  if resolvedPath ∈ st.selected then ⟨setRemove st.selected resolvedPath, comp⟩
  else ⟨setAdd st.selected resolvedPath, comp⟩

/-- Key S on a file row (`tui.py` lines 483-493): toggle compressed marking,
adding to `selected_paths` when newly marked. -/
def mark_compressed (st : SelState) (resolvedPath : String) : SelState :=
  if resolvedPath ∈ st.compressed then
    ⟨st.selected, setRemove st.compressed resolvedPath⟩
  else
    ⟨setAdd st.selected resolvedPath, setAdd st.compressed resolvedPath⟩

/-- Key F (`tui.py` lines 513-527): bulk toggle of all files below the target
folder, deciding by subset membership. -/
def folder_toggle_selection (st : SelState) (folderFiles : List String) : SelState :=
  if folderFiles.all (st.selected.contains ·) then
    ⟨setDiff st.selected folderFiles, st.compressed⟩
  else
    ⟨setUnion st.selected folderFiles, st.compressed⟩

/-- Key A (`tui.py` lines 437-451): select or deselect all files visible among
the current display rows. -/
def select_all_toggle (st : SelState) (visibleFiles : List String) : SelState :=
  if !visibleFiles.isEmpty && visibleFiles.all (st.selected.contains ·) then
    ⟨setDiff st.selected visibleFiles, st.compressed⟩
  else
    ⟨setUnion st.selected visibleFiles, st.compressed⟩

/-- Left mouse click on a file row (`tui.py` lines 383-389): toggle membership
in `selected_paths` only. -/
def mouse_toggle_file (st : SelState) (resolvedPath : String) : SelState :=
  if resolvedPath ∈ st.selected then
    ⟨setRemove st.selected resolvedPath, st.compressed⟩
  else
    ⟨setAdd st.selected resolvedPath, st.compressed⟩

/-- Loading a named configuration (`tui.py` lines 418-427): clear both sets and
install the loaded lists. -/
def load_config_selection (_st : SelState) (loadedSelected loadedCompressed : List String) :
    SelState :=
  ⟨loadedSelected, loadedCompressed⟩

/- ------------------------------------------------------ -/
/- Ignore-name layer of the tree builder (`file_utils.py`). -/
/- ------------------------------------------------------ -/

/-- `DEFAULT_IGNORE_LIST` from `file_utils.py`. -/
def DEFAULT_IGNORE_LIST : List String :=
  [".git", "venv", ".summary_files", "__pycache__",
   ".vscode", ".idea", "node_modules", "build", "dist",
   "*.pyc", "*.pyo", "*.egg-info", ".DS_Store",
   ".env"]

/-- The two ignore-list checks of `build_tree` / `build_tree_with_folders`
(`file_utils.py` lines 202-206 and 294-299): a path is skipped when some
segment is exactly in the list, or when some proper-ancestor directory name
contains a list entry as a substring (Python's `ignore_item in parent.name`).
`relative_path.parents` excluding `.` yields exactly the segments before the
last one. -/
def excludedByIgnoreList (ignoreList : List String) (parts : List String) : Bool :=
  parts.any (fun part => ignoreList.contains part) ||
  parts.dropLast.any (fun nm => ignoreList.any (fun item => decide (item.data <:+: nm.data)))

/-- Join relative-path segments with `/`, as `relative_path.as_posix()`. -/
def joinSegs : List String → String
  | [] => ""
  | [s] => s
  | s :: rest => s ++ "/" ++ joinSegs rest

/-- One filesystem item visited by the `rglob` walk of the tree builders. -/
structure FsItem where
  parts : List String
  isDir : Bool
  absPath : String

/-- The filter applied by `build_tree` to every walked item (`file_utils.py`
lines 195-217): ignore-name layer, then combined gitignore matcher (trailing
slash for directories), then the text-file check for files.  The gitignore
matcher and the content classifier are abstracted as predicates. -/
def build_tree_keeps (ignoreList : List String) (gitMatch : String → Bool)
    (isTextFile : String → Bool) (it : FsItem) : Bool :=
  !(excludedByIgnoreList ignoreList it.parts) &&
  !(gitMatch (joinSegs it.parts ++ if it.isDir then "/" else "")) &&
  (it.isDir || isTextFile it.absPath)

/- --------------------------------------------- -/
/- Token totals and display (`tui.py`).           -/
/- --------------------------------------------- -/

/-- `_calculate_total_tokens` from `tui.py` (lines 225-233): sum the per-file
token counts over selected files not marked compressed, adding only counts
that are greater than zero.  The per-file counter `_get_file_token_count` is
abstracted as a function to `Int` (it returns -1 on any failure). -/
def calculate_total_tokens (tok : String → Int)
    (selectedPaths compressedPaths : List String) : Int :=
  selectedPaths.foldl
    (fun total p =>
      if p ∉ compressedPaths then
        if tok p > 0 then total + tok p else total
      else total)
    0

/-- One-decimal rounding of `num / den` in tenths, half to even, mirroring what
Python's float formatting produces for the sample sizes the code can see. -/
def roundHalfEvenTenths (num den : Nat) : Nat :=
  let q := (10 * num) / den
  let r := (10 * num) % den
  if 2 * r < den then q
  else if 2 * r > den then q + 1
  else if q % 2 = 0 then q else q + 1

/-- Render `num / den` with one decimal place, as Python's f-string `:.1f`. -/
def fmtOneDecimal (num den : Nat) : String :=
  let t := roundHalfEvenTenths num den
  toString (t / 10) ++ "." ++ toString (t % 10)

/-- `_format_token_count` from `tui.py` (lines 49-58): negative counts render
as the placeholder glyph, small counts as the number itself, larger counts in
`k` / `M` units with one decimal. -/
def format_token_count (tokenCount : Int) : String :=
  if tokenCount < 0 then "(?)"
  else if tokenCount < 1000 then toString tokenCount
  else if tokenCount < 1000000 then fmtOneDecimal tokenCount.toNat 1000 ++ "k"
  else fmtOneDecimal tokenCount.toNat 1000000 ++ "M"

/- ------------------------------------------------------- -/
/- Persisted selection store (`summary_utils.py`).           -/
/- ------------------------------------------------------- -/

/-- Result of one `read_previous_selection` call: the returned pair, the store
content afterwards, and whether the store file was rewritten. -/
structure LoadOutcome where
  result : List String × List String
  store : Option (List String × List String)
  wrote : Bool
deriving DecidableEq, Repr

/-- `read_previous_selection` from `summary_utils.py` (lines 48-129), with the
filesystem abstracted: `fsExists` is `Path(...).exists()` and `resolvePath` is
`str(Path(p).resolve())`.  `stored` is the parsed content of
`previous_selection.json` (`none` when the file is missing or unreadable).
Selected paths that no longer exist are dropped; compressed paths are kept only
when they exist and are still selected; when any nonexistent path was dropped,
the cleaned selection is written back. -/
def read_previous_selection (fsExists : String → Bool) (resolvePath : String → String)
    (stored : Option (List String × List String)) : LoadOutcome :=
  match stored with
  | none => ⟨([], []), none, false⟩
  | some (sel, comp) =>
    let absPaths := sel.map resolvePath
    let absCompressed := comp.map resolvePath
    let existingPaths := absPaths.filter (fun p => fsExists p)
    let existingCompressed :=
      absCompressed.filter (fun p => fsExists p && existingPaths.contains p)
    let removedCount :=
      (absPaths.filter (fun p => !fsExists p)).length +
      (absCompressed.filter (fun p => !fsExists p)).length
    if removedCount > 0 then
      ⟨(existingPaths, existingCompressed), some (existingPaths, existingCompressed), true⟩
    else
      ⟨(existingPaths, existingCompressed), stored, false⟩

/-- Python `configs[k] = v` on a dict modelled as an association list. -/
def dictSet {α : Type} (d : List (String × α)) (k : String) (v : α) :
    List (String × α) :=
  if (d.lookup k).isSome then d.map (fun kv => if kv.1 = k then (k, v) else kv)
  else d ++ [(k, v)]

/-- Python `del configs[k]`. -/
def dictDel {α : Type} (d : List (String × α)) (k : String) : List (String × α) :=
  d.filter (fun kv => kv.1 != k)

/-- `rename_selection_config` from `summary_utils.py` (lines 484-492): when the
old name exists and the new name does not, move the entry and write the store
(returning the new store, the boolean result, and whether a write happened);
otherwise everything is left untouched and no write occurs. -/
def rename_selection_config {α : Type} (configs : List (String × α))
    (oldName newName : String) : List (String × α) × Bool × Bool :=
  match configs.lookup oldName, configs.lookup newName with
  | some v, none => (dictDel (dictSet configs newName v) oldName, true, true)
  | _, _ => (configs, false, false)

/- ------------------------------------------------- -/
/- Gitignore pattern rewriting (`file_utils.py`).      -/
/- ------------------------------------------------- -/

/-- Does the string start with the given character (Python `line.startswith`). -/
def strStartsWithChar (c : Char) (s : String) : Bool :=
  match s.data with
  | [] => false
  | a :: _ => a == c

/-- Python `line[1:]`. -/
def strDropFirst (s : String) : String := ⟨s.data.drop 1⟩

/-- The pattern-adjustment of `parse_all_gitignores` (`file_utils.py` lines
149-161): `pre` is `""` for the root pattern file and `D/` for one located in
subdirectory `D`. -/
def adjust_gitignore_pattern (pre line : String) : String :=
  if pre ≠ "" && !strStartsWithChar '/' line then pre ++ line
  else if strStartsWithChar '/' line then pre ++ strDropFirst line
  else line

/-- `parse_all_gitignores` (`file_utils.py` lines 115-178) restricted to its
pure core: each pattern file is given as its prefix (`""` or `D/`) together
with its stripped lines; blank and `#` comment lines are dropped and every
remaining line is adjusted, all results being combined into one pattern list. -/
def parse_all_gitignores (files : List (String × List String)) : List String :=
  files.flatMap fun pf =>
    (pf.2.filter fun l => l ≠ "" && !strStartsWithChar '#' l).map
      (adjust_gitignore_pattern pf.1)

/-- Split a character list on `/` separators. -/
def splitOnSlash : List Char → List (List Char)
  | [] => [[]]
  | c :: rest =>
    match splitOnSlash rest with
    | s :: ss => if c = '/' then [] :: s :: ss else (c :: s) :: ss
    | [] => [[c]]

/-- Fuel-indexed glob match of one pattern segment against one path segment
(`*` spans any characters of the segment, `?` exactly one); every step shrinks
pattern plus segment, so the fuel in `globSegMatch` below always suffices. -/
def globSegMatchFuel : Nat → List Char → List Char → Bool
  | 0, _, _ => false
  | _ + 1, [], [] => true
  | f + 1, '*' :: ps, s =>
    globSegMatchFuel f ps s ||
    (match s with
     | [] => false
     | _ :: s2 => globSegMatchFuel f ('*' :: ps) s2)
  | f + 1, '?' :: ps, _ :: cs => globSegMatchFuel f ps cs
  | f + 1, p :: ps, c :: cs => p == c && globSegMatchFuel f ps cs
  | _ + 1, _, _ => false

/-- Glob match of one pattern segment against one path segment. -/
def globSegMatch (pat s : List Char) : Bool :=
  globSegMatchFuel (pat.length + s.length + 1) pat s

/-- Segment lists match when they have the same length and match segment-wise. -/
def segsMatch : List (List Char) → List (List Char) → Bool
  | [], [] => true
  | p :: ps, s :: ss => globSegMatch p s && segsMatch ps ss
  | _, _ => false

/-- Modelled from the spec: the combined matcher built by
`pathspec.PathSpec.from_lines(GitWildMatchPattern, ...)` is an external
collaborator; the spec describes it as standard glob-ignore semantics.  This
models the slash-anchored case the rewriting produces: a pattern containing a
`/` is matched against the whole root-relative path, segment by segment, with
`*`/`?` wildcards confined to one segment. -/
def gitwild_match (pattern path : String) : Bool :=
  segsMatch (splitOnSlash pattern.data) (splitOnSlash path.data)

/- --------------------------------------------- -/
/- `select_files` outcome handling (`tui.py`).     -/
/- --------------------------------------------- -/

/-- How one run of the interactive loop ends, as seen by `select_files`
(`tui.py` lines 1188-1214): the inner `_curses_main` either returns the two
sets (confirm), returns `None` (quit or interrupt), or an exception escapes
`curses.wrapper` (`curses.error` or any other), which `select_files` catches. -/
inductive SessionOutcome where
  | confirmed (selected compressed : List String)
  | cancelled
  | cursesError (msg : String)
  | otherError (msg : String)
deriving DecidableEq, Repr

/-- String order for Python's `sorted` on path lists. -/
def strLe (a b : String) : Prop := lexLe a.data b.data = true

instance : DecidableRel strLe := fun a b => by
  unfold strLe; infer_instance

/-- Python `sorted(list(s))`. -/
def sortStrings (l : List String) : List String := l.insertionSort strLe

/-- The value `select_files` hands back to its caller for each way the session
can end: sorted lists on confirm, `([], [])` in every other case (`tui.py`
lines 1188-1214). -/
def select_files_result (outcome : SessionOutcome) : List String × List String :=
  match outcome with
  | .confirmed sel comp => (sortStrings sel, sortStrings comp)
  | .cancelled => ([], [])
  | .cursesError _ => ([], [])
  | .otherError _ => ([], [])

/- --------------------------------------------- -/
/- Content classifier (`file_utils.py`).           -/
/- --------------------------------------------- -/

/-- `_analyze_file_content` from `file_utils.py` (lines 42-87) on the sampled
bytes: empty sample is text; a null byte or more than 10% control characters
(other than tab, newline, carriage return) is binary; otherwise the UTF-8
decoding decides by printable ratio, falling back to the alternative encodings
when UTF-8 fails.  The decoding collaborators are abstracted as parameters;
the float comparisons are represented exactly as integer inequalities. -/
def analyze_file_content (decodeUtf8 : List Nat → Option (List Char))
    (fallbackDecodes : List Nat → Bool) (isPrintable isSpace : Char → Bool)
    (chunk : List Nat) : Bool :=
  if chunk.isEmpty then true
  else if chunk.contains 0 then false
  else if 10 * (chunk.countP fun b => b < 32 && b != 9 && b != 10 && b != 13) >
          chunk.length then false
  else
    match decodeUtf8 chunk with
    | some text =>
      if text.isEmpty then true
      else decide (10 * (text.countP fun c => isPrintable c || isSpace c) >
                   7 * text.length)
    | none => fallbackDecodes chunk

/- ------------------------------------------------------------------ -/
/- Theorems.                                                           -/
/- ------------------------------------------------------------------ -/

theorem strData_append (s t : String) : (s ++ t).data = s.data ++ t.data := rfl

theorem strData_empty : ("" : String).data = [] := rfl

/-- C10: a file whose content sample is empty is classified as text by
`_analyze_file_content`, whatever the decoding collaborators do, so an empty
file is never excluded by the content-check layer. -/
theorem c10_empty_sample_classified_text
    (decodeUtf8 : List Nat → Option (List Char)) (fallbackDecodes : List Nat → Bool)
    (isPrintable isSpace : Char → Bool) :
    analyze_file_content decodeUtf8 fallbackDecodes isPrintable isSpace [] = true := rfl

/-- C9: for every way the interactive session can end other than an explicit
confirm — quit/interrupt (`cancelled`), a terminal error, or any other
exception — `select_files` hands `([], [])` back to its caller rather than
propagating the failure. -/
theorem c9_select_files_error_fallback (outcome : SessionOutcome)
    (h : ∀ sel comp, outcome ≠ SessionOutcome.confirmed sel comp) :
    select_files_result outcome = ([], []) := by
  cases outcome with
  | confirmed sel comp => exact absurd rfl (h sel comp)
  | cancelled => rfl
  | cursesError msg => rfl
  | otherError msg => rfl

theorem c9_select_files_error_fallback_witness :
    select_files_result (SessionOutcome.cursesError "could not initialize terminal") =
      ([], []) :=
  c9_select_files_error_fallback _ (fun _ _ h => SessionOutcome.noConfusion h)

/-- C1: the claimed invariant `compressed ⊆ selected` is broken by the
mouse-click transition of `_curses_main` (`tui.py` lines 383-389): clicking a
selected-and-compressed file row removes it from `selected_paths` but leaves it
in `compressed_paths`, unlike the SPACE handler which removes the compressed
marking in the same step. -/
theorem c1_mouse_click_breaks_subset_invariant :
    mouse_toggle_file ⟨["/r/a.py"], ["/r/a.py"]⟩ "/r/a.py" =
      ⟨[], ["/r/a.py"]⟩ ∧
    ¬ (∀ p ∈ (mouse_toggle_file ⟨["/r/a.py"], ["/r/a.py"]⟩ "/r/a.py").compressed,
        p ∈ (mouse_toggle_file ⟨["/r/a.py"], ["/r/a.py"]⟩ "/r/a.py").selected) := by
  decide

/-- The SPACE handler does maintain the subset invariant: it removes a path
from `compressed_paths` whenever it toggles it out of `selected_paths`. -/
theorem space_toggle_preserves_subset (st : SelState) (p : String)
    (hinv : ∀ q ∈ st.compressed, q ∈ st.selected) :
    ∀ q ∈ (space_toggle_file st p).compressed, q ∈ (space_toggle_file st p).selected := by
  intro q hq
  unfold space_toggle_file at hq ⊢
  by_cases hs : p ∈ st.selected
  · simp only [if_pos hs] at hq ⊢
    by_cases hc : p ∈ st.compressed
    · simp only [if_pos hc] at hq ⊢
      simp only [setRemove, List.mem_filter] at hq ⊢
      exact ⟨hinv q hq.1, hq.2⟩
    · simp only [if_neg hc] at hq ⊢
      simp only [setRemove, List.mem_filter]
      refine ⟨hinv q hq, ?_⟩
      simp only [bne_iff_ne, ne_eq]
      intro hqp
      exact hc (hqp ▸ hq)
  · simp only [if_neg hs] at hq ⊢
    by_cases hc : p ∈ st.compressed
    · simp only [if_pos hc] at hq ⊢
      simp only [setRemove, List.mem_filter] at hq
      have hsel := hinv q hq.1
      simp only [setAdd, if_neg hs]
      exact List.mem_append_left _ hsel
    · simp only [if_neg hc] at hq ⊢
      have hsel := hinv q hq
      simp only [setAdd, if_neg hs]
      exact List.mem_append_left _ hsel

/-- The S (mark compressed) handler also maintains the subset invariant,
adding the path to `selected_paths` when newly marking it. -/
theorem mark_compressed_preserves_subset (st : SelState) (p : String)
    (hinv : ∀ q ∈ st.compressed, q ∈ st.selected) :
    ∀ q ∈ (mark_compressed st p).compressed, q ∈ (mark_compressed st p).selected := by
  intro q hq
  unfold mark_compressed at hq ⊢
  by_cases hc : p ∈ st.compressed
  · simp only [if_pos hc] at hq ⊢
    simp only [setRemove, List.mem_filter] at hq
    exact hinv q hq.1
  · simp only [if_neg hc] at hq ⊢
    simp only [setAdd, if_neg hc] at hq
    rcases List.mem_append.mp hq with h | h
    · have hsel := hinv q h
      simp only [setAdd]
      by_cases hs : p ∈ st.selected
      · simpa only [if_pos hs] using hsel
      · simp only [if_neg hs]
        exact List.mem_append_left _ hsel
    · have hqp : q = p := by simpa using h
      subst hqp
      simp only [setAdd]
      by_cases hs : q ∈ st.selected
      · simpa only [if_pos hs] using hs
      · simp only [if_neg hs]
        exact List.mem_append_right _ (by simp)

/-- C5: the running token total of `_calculate_total_tokens` is exactly the sum
of the token counts of the selected, non-compressed files, where an unknown
count (-1) contributes nothing; `_format_token_count` renders -1 as the
placeholder glyph; and on the specification's scenario (a.py at 500 tokens,
sub/b.py at 300) the total is 800, and marking sub/b.py compressed keeps it
selected and drops the total to 500. -/
theorem c5_token_total (tok : String → Int) (selectedPaths compressedPaths : List String)
    (htok : ∀ p, tok p = -1 ∨ 0 ≤ tok p) :
    calculate_total_tokens tok selectedPaths compressedPaths =
      ((selectedPaths.filter fun p => decide (p ∉ compressedPaths)).map
        (fun p => if tok p = -1 then 0 else tok p)).sum ∧
    format_token_count (-1) = "(?)" ∧
    calculate_total_tokens
      (fun p => if p = "/r/a.py" then 500 else if p = "/r/sub/b.py" then 300 else -1)
      ["/r/a.py", "/r/sub/b.py"] [] = 800 ∧
    mark_compressed ⟨["/r/a.py", "/r/sub/b.py"], []⟩ "/r/sub/b.py" =
      ⟨["/r/a.py", "/r/sub/b.py"], ["/r/sub/b.py"]⟩ ∧
    calculate_total_tokens
      (fun p => if p = "/r/a.py" then 500 else if p = "/r/sub/b.py" then 300 else -1)
      ["/r/a.py", "/r/sub/b.py"] ["/r/sub/b.py"] = 500 := by
  refine ⟨?_, by decide, by decide, by decide, by decide⟩
  have aux : ∀ (l : List String) (init : Int),
      l.foldl
        (fun total p =>
          if p ∉ compressedPaths then
            if tok p > 0 then total + tok p else total
          else total)
        init =
      init + ((l.filter fun p => decide (p ∉ compressedPaths)).map
        (fun p => if tok p = -1 then 0 else tok p)).sum := by
    intro l
    induction l with
    | nil => intro init; simp
    | cons p rest ih =>
      intro init
      by_cases hp : p ∈ compressedPaths
      · have hnp : ¬ p ∉ compressedPaths := not_not_intro hp
        simp only [List.foldl_cons, if_neg hnp]
        rw [List.filter_cons_of_neg (by simpa using hnp)]
        exact ih init
      · simp only [List.foldl_cons, if_pos hp]
        rw [List.filter_cons_of_pos (by simpa using hp)]
        by_cases ht : tok p > 0
        · have hne : ¬ tok p = -1 := by omega
          simp only [if_pos ht, List.map_cons, List.sum_cons, if_neg hne]
          rw [ih (init + tok p)]
          ring
        · have hzero : (if tok p = -1 then 0 else tok p) = 0 := by
            rcases htok p with h | h
            · simp [h]
            · have : tok p = 0 := by omega
              simp [this]
          simp only [if_neg ht, List.map_cons, List.sum_cons, hzero]
          rw [ih init]
          ring
  simpa [calculate_total_tokens] using aux selectedPaths 0

theorem c5_token_total_witness :
    calculate_total_tokens (fun _ => (-1 : Int)) ["/r/x.py"] [] = 0 := by
  have h := c5_token_total (fun _ => (-1 : Int)) ["/r/x.py"] [] (fun _ => Or.inl rfl)
  rw [h.1]
  decide

/-- C4 fails as stated: with the default ignore list (which contains `build`),
the relative path `builds/x.py` has no segment exactly equal to any list entry,
yet the name-list layer excludes it, because the second check of `build_tree`
tests substring containment (`ignore_item in parent.name`) on ancestor
directory names and `build` is a substring of `builds`. -/
theorem c4_counterexample_substring_ancestor :
    excludedByIgnoreList DEFAULT_IGNORE_LIST ["builds", "x.py"] = true ∧
    (["builds", "x.py"].all fun part => !(DEFAULT_IGNORE_LIST.contains part)) = true := by
  decide

/-- C4 amended: the name-list layer excludes a relative path exactly when some
segment is exactly in the ignore list, or some non-final segment (an ancestor
directory name) contains a list entry as a substring.  The exclusion is
hereditary (everything beneath an excluded path is excluded), and with `build`
in the default list both `build/output.o` and the directory `build/sub` are
dropped by the tree builder regardless of the gitignore matcher and of the
content classifier. -/
theorem c4_ignore_name_layer_amended (ignoreList : List String) (parts : List String) :
    (excludedByIgnoreList ignoreList parts = true ↔
      (∃ part ∈ parts, part ∈ ignoreList) ∨
      (∃ nm ∈ parts.dropLast, ∃ item ∈ ignoreList, item.data <:+: nm.data)) ∧
    (∀ more, excludedByIgnoreList ignoreList parts = true →
      excludedByIgnoreList ignoreList (parts ++ more) = true) ∧
    (∀ gitMatch isTextFile,
      build_tree_keeps DEFAULT_IGNORE_LIST gitMatch isTextFile
        ⟨["build", "output.o"], false, "/r/build/output.o"⟩ = false) ∧
    (∀ gitMatch isTextFile,
      build_tree_keeps DEFAULT_IGNORE_LIST gitMatch isTextFile
        ⟨["build", "sub"], true, "/r/build/sub"⟩ = false) := by
  have hiff : ∀ ps : List String, excludedByIgnoreList ignoreList ps = true ↔
      (∃ part ∈ ps, part ∈ ignoreList) ∨
      (∃ nm ∈ ps.dropLast, ∃ item ∈ ignoreList, item.data <:+: nm.data) := by
    intro ps
    simp [excludedByIgnoreList, List.any_eq_true, List.elem_iff]
  refine ⟨hiff parts, ?_, ?_, ?_⟩
  · intro more hexcl
    rcases (hiff parts).mp hexcl with ⟨part, hmem, hin⟩ | ⟨nm, hmem, item, hitem, hinf⟩
    · exact (hiff (parts ++ more)).mpr (Or.inl ⟨part, List.mem_append_left _ hmem, hin⟩)
    · refine (hiff (parts ++ more)).mpr (Or.inr ⟨nm, ?_, item, hitem, hinf⟩)
      cases more with
      | nil => simpa using hmem
      | cons m ms =>
        rw [List.dropLast_append_cons]
        exact List.mem_append_left _ (List.mem_of_mem_dropLast hmem)
  · intro gitMatch isTextFile
    have hexcl : excludedByIgnoreList DEFAULT_IGNORE_LIST ["build", "output.o"] = true := by
      decide
    simp [build_tree_keeps, hexcl]
  · intro gitMatch isTextFile
    have hexcl : excludedByIgnoreList DEFAULT_IGNORE_LIST ["build", "sub"] = true := by
      decide
    simp [build_tree_keeps, hexcl]

theorem c4_ignore_name_layer_amended_witness :
    excludedByIgnoreList DEFAULT_IGNORE_LIST ["build", "output.o", "deep.txt"] = true := by
  have h := (c4_ignore_name_layer_amended DEFAULT_IGNORE_LIST ["build", "output.o"]).2.1
  have hbase : excludedByIgnoreList DEFAULT_IGNORE_LIST ["build", "output.o"] = true := by
    decide
  simpa using h ["deep.txt"] hbase

theorem lookup_cons {α : Type} (k : String) (v : α) (rest : List (String × α)) (x : String) :
    ((k, v) :: rest).lookup x = if x = k then some v else rest.lookup x := by
  by_cases h : x = k
  · simp [List.lookup, h]
  · have hb : (x == k) = false := beq_eq_false_iff_ne.mpr h
    simp [List.lookup, hb, h]

theorem keys_ne_of_lookup_none {α : Type} (d : List (String × α)) (x : String)
    (h : d.lookup x = none) : ∀ kv ∈ d, kv.1 ≠ x := by
  induction d with
  | nil => intro kv hkv; cases hkv
  | cons kv0 rest ih =>
    obtain ⟨k0, v0⟩ := kv0
    rw [lookup_cons] at h
    by_cases hx : x = k0
    · simp [hx] at h
    · simp only [if_neg hx] at h
      intro kv hkv
      rcases List.mem_cons.mp hkv with h1 | h1
      · subst h1
        exact fun hk => hx hk.symm
      · exact ih h kv h1

theorem lookup_append_of_keys_ne {α : Type} (l1 l2 : List (String × α)) (x : String)
    (h : ∀ kv ∈ l1, kv.1 ≠ x) : (l1 ++ l2).lookup x = l2.lookup x := by
  induction l1 with
  | nil => rfl
  | cons kv0 rest ih =>
    obtain ⟨k0, v0⟩ := kv0
    have hne : x ≠ k0 := fun hx => (h (k0, v0) (List.mem_cons_self _ _)) hx.symm
    rw [List.cons_append, lookup_cons, if_neg hne]
    exact ih fun kv hkv => h kv (List.mem_cons_of_mem _ hkv)

theorem lookup_append_left_some {α : Type} (l1 l2 : List (String × α)) (x : String)
    (v : α) (h : l1.lookup x = some v) : (l1 ++ l2).lookup x = some v := by
  induction l1 with
  | nil => cases h
  | cons kv0 rest ih =>
    obtain ⟨k0, v0⟩ := kv0
    rw [lookup_cons] at h
    rw [List.cons_append, lookup_cons]
    by_cases hx : x = k0
    · simpa [hx] using h
    · rw [if_neg hx]
      rw [if_neg hx] at h
      exact ih h

theorem lookup_filter_ne_self {α : Type} (d : List (String × α)) (x : String) :
    (d.filter fun kv => kv.1 != x).lookup x = none := by
  induction d with
  | nil => rfl
  | cons kv0 rest ih =>
    obtain ⟨k0, v0⟩ := kv0
    by_cases h : k0 = x
    · rw [List.filter_cons_of_neg (by simp [h])]
      exact ih
    · rw [List.filter_cons_of_pos (by simp [h])]
      rw [lookup_cons, if_neg (fun hx => h hx.symm)]
      exact ih

theorem lookup_filter_ne_other {α : Type} (d : List (String × α)) (x k : String)
    (h : k ≠ x) : (d.filter fun kv => kv.1 != x).lookup k = d.lookup k := by
  induction d with
  | nil => rfl
  | cons kv0 rest ih =>
    obtain ⟨k0, v0⟩ := kv0
    by_cases h0 : k0 = x
    · rw [List.filter_cons_of_neg (by simp [h0])]
      rw [lookup_cons, if_neg (by rw [h0]; exact h), ih]
    · rw [List.filter_cons_of_pos (by simp [h0])]
      rw [lookup_cons, lookup_cons]
      by_cases hk : k = k0
      · simp [hk]
      · rw [if_neg hk, if_neg hk, ih]

/-- C7: `rename_selection_config` fails and changes nothing at all (no store
mutation, no file write) when the old name is absent or the new name is already
taken; otherwise it succeeds, writing a store that maps the new name to the old
snapshot, drops the old name, and keeps every other entry unchanged. -/
theorem c7_rename_config {α : Type} (configs : List (String × α))
    (oldName newName : String) :
    (((configs.lookup oldName).isNone ∨ (configs.lookup newName).isSome) →
      rename_selection_config configs oldName newName = (configs, false, false)) ∧
    (∀ v, configs.lookup oldName = some v → configs.lookup newName = none →
      (rename_selection_config configs oldName newName).2.1 = true ∧
      (rename_selection_config configs oldName newName).2.2 = true ∧
      ((rename_selection_config configs oldName newName).1).lookup newName = some v ∧
      ((rename_selection_config configs oldName newName).1).lookup oldName = none ∧
      (∀ k, k ≠ oldName → k ≠ newName →
        ((rename_selection_config configs oldName newName).1).lookup k =
          configs.lookup k)) := by
  constructor
  · intro h
    unfold rename_selection_config
    rcases hold : configs.lookup oldName with _ | v
    · rfl
    · rcases hnew : configs.lookup newName with _ | w
      · exfalso
        rcases h with h | h
        · rw [hold] at h; cases h
        · rw [hnew] at h; cases h
      · rfl
  · intro v hold hnew
    have hne : oldName ≠ newName := by
      intro he
      rw [he, hnew] at hold
      cases hold
    have hset : dictSet configs newName v = configs ++ [(newName, v)] := by
      unfold dictSet
      rw [hnew]
      rfl
    have hres : rename_selection_config configs oldName newName =
        (dictDel (dictSet configs newName v) oldName, true, true) := by
      unfold rename_selection_config
      rw [hold, hnew]
    have hdel : dictDel (dictSet configs newName v) oldName =
        (configs.filter fun kv => kv.1 != oldName) ++ [(newName, v)] := by
      rw [hset]
      unfold dictDel
      rw [List.filter_append]
      congr 1
      rw [List.filter_cons_of_pos (by simp [Ne.symm hne])]
      rfl
    rw [hres, hdel]
    refine ⟨rfl, rfl, ?_, ?_, ?_⟩
    · rw [lookup_append_of_keys_ne]
      · rw [lookup_cons, if_pos rfl]
      · intro kv hkv
        exact keys_ne_of_lookup_none configs newName hnew kv (List.mem_of_mem_filter hkv)
    · rw [lookup_append_of_keys_ne]
      · rw [lookup_cons, if_neg hne]
        rfl
      · intro kv hkv
        have := List.of_mem_filter hkv
        simpa using this
    · intro k hko hkn
      rcases hk : configs.lookup k with _ | w
      · rw [lookup_append_of_keys_ne]
        · rw [lookup_cons, if_neg hkn]
          rfl
        · intro kv hkv
          have h1 : (configs.filter fun kv => kv.1 != oldName).lookup k = none := by
            rw [lookup_filter_ne_other configs oldName k hko]
            exact hk
          exact keys_ne_of_lookup_none _ k h1 kv hkv
      · rw [lookup_append_left_some]
        rw [lookup_filter_ne_other configs oldName k hko]
        exact hk

theorem c7_rename_config_witness :
    (rename_selection_config [("base", 1), ("alt", 2)] "alt" "base" =
      ([("base", 1), ("alt", 2)], false, false)) ∧
    ((rename_selection_config [("base", 1), ("alt", 2)] "alt" "renamed").1).lookup
      "renamed" = some 2 := by
  constructor
  · exact (c7_rename_config [("base", 1), ("alt", 2)] "alt" "base").1
      (Or.inr (by decide))
  · exact ((c7_rename_config [("base", 1), ("alt", 2)] "alt" "renamed").2 2
      (by decide) (by decide)).2.2.1

/-- C6: loading the persisted selection twice with an unchanged filesystem gives
identical results and an identical store, the second call never rewrites the
file, and every returned path (selected or compressed) exists on disk —
nonexistent paths are silently dropped on load. -/
theorem c6_load_pruning_idempotent (fsExists : String → Bool)
    (resolvePath : String → String) (stored : Option (List String × List String))
    (hres : ∀ p, resolvePath (resolvePath p) = resolvePath p) :
    (read_previous_selection fsExists resolvePath
        (read_previous_selection fsExists resolvePath stored).store).result =
      (read_previous_selection fsExists resolvePath stored).result ∧
    (read_previous_selection fsExists resolvePath
        (read_previous_selection fsExists resolvePath stored).store).store =
      (read_previous_selection fsExists resolvePath stored).store ∧
    (read_previous_selection fsExists resolvePath
        (read_previous_selection fsExists resolvePath stored).store).wrote = false ∧
    (∀ p ∈ (read_previous_selection fsExists resolvePath stored).result.1,
      fsExists p = true) ∧
    (∀ p ∈ (read_previous_selection fsExists resolvePath stored).result.2,
      fsExists p = true) := by
  cases stored with
  | none =>
    refine ⟨rfl, rfl, rfl, ?_, ?_⟩ <;> · intro p hp; cases hp
  | some sc =>
    obtain ⟨sel, comp⟩ := sc
    have hfirst : read_previous_selection fsExists resolvePath (some (sel, comp)) =
        if ((sel.map resolvePath).filter fun p => !fsExists p).length +
            ((comp.map resolvePath).filter fun p => !fsExists p).length > 0 then
          ⟨(((sel.map resolvePath).filter fun p => fsExists p),
            ((comp.map resolvePath).filter fun p =>
              fsExists p &&
              ((sel.map resolvePath).filter fun q => fsExists q).contains p)),
           some (((sel.map resolvePath).filter fun p => fsExists p),
             ((comp.map resolvePath).filter fun p =>
               fsExists p &&
               ((sel.map resolvePath).filter fun q => fsExists q).contains p)),
           true⟩
        else
          ⟨(((sel.map resolvePath).filter fun p => fsExists p),
            ((comp.map resolvePath).filter fun p =>
              fsExists p &&
              ((sel.map resolvePath).filter fun q => fsExists q).contains p)),
           some (sel, comp), false⟩ := rfl
    have hidE : ∀ p ∈ (sel.map resolvePath).filter (fun p => fsExists p),
        resolvePath p = p := by
      intro p hp
      obtain ⟨q, _, hq⟩ := List.mem_map.mp (List.mem_of_mem_filter hp)
      rw [← hq, hres q]
    have hidEC : ∀ p ∈ (comp.map resolvePath).filter (fun p =>
        fsExists p && ((sel.map resolvePath).filter fun q => fsExists q).contains p),
        resolvePath p = p := by
      intro p hp
      obtain ⟨q, _, hq⟩ := List.mem_map.mp (List.mem_of_mem_filter hp)
      rw [← hq, hres q]
    have hmemE : ∀ p ∈ (sel.map resolvePath).filter (fun p => fsExists p),
        fsExists p = true := fun p hp => List.of_mem_filter hp
    have hmemEC : ∀ p ∈ (comp.map resolvePath).filter (fun p =>
        fsExists p && ((sel.map resolvePath).filter fun q => fsExists q).contains p),
        fsExists p = true := by
      intro p hp
      have := List.of_mem_filter hp
      exact (Bool.and_eq_true_iff.mp this).1
    have hresultE : (read_previous_selection fsExists resolvePath
        (some (sel, comp))).result =
        (((sel.map resolvePath).filter fun p => fsExists p),
         ((comp.map resolvePath).filter fun p =>
           fsExists p &&
           ((sel.map resolvePath).filter fun q => fsExists q).contains p)) := by
      rw [hfirst]
      split <;> rfl
    by_cases hrc : ((sel.map resolvePath).filter fun p => !fsExists p).length +
        ((comp.map resolvePath).filter fun p => !fsExists p).length > 0
    · -- the first call pruned and rewrote the store
      have hstore : (read_previous_selection fsExists resolvePath
          (some (sel, comp))).store =
          some (((sel.map resolvePath).filter fun p => fsExists p),
            ((comp.map resolvePath).filter fun p =>
              fsExists p &&
              ((sel.map resolvePath).filter fun q => fsExists q).contains p)) := by
        rw [hfirst, if_pos hrc]
      have hmapE : ((sel.map resolvePath).filter fun p => fsExists p).map resolvePath =
          (sel.map resolvePath).filter fun p => fsExists p := by
        rw [List.map_eq_map_iff.mpr hidE, List.map_id']
      have hmapEC : ((comp.map resolvePath).filter fun p =>
            fsExists p &&
            ((sel.map resolvePath).filter fun q => fsExists q).contains p).map
              resolvePath =
          (comp.map resolvePath).filter fun p =>
            fsExists p &&
            ((sel.map resolvePath).filter fun q => fsExists q).contains p := by
        rw [List.map_eq_map_iff.mpr hidEC, List.map_id']
      have hfE : (((sel.map resolvePath).filter fun p => fsExists p).filter
          fun p => fsExists p) =
          (sel.map resolvePath).filter fun p => fsExists p :=
        List.filter_eq_self.mpr hmemE
      have hfEC : (((comp.map resolvePath).filter fun p =>
            fsExists p &&
            ((sel.map resolvePath).filter fun q => fsExists q).contains p).filter
          fun p =>
            fsExists p &&
            ((sel.map resolvePath).filter fun q => fsExists q).contains p) =
          (comp.map resolvePath).filter fun p =>
            fsExists p &&
            ((sel.map resolvePath).filter fun q => fsExists q).contains p := by
        refine List.filter_eq_self.mpr ?_
        intro p hp
        simpa using List.of_mem_filter hp
    
      have hnE : (((sel.map resolvePath).filter fun p => fsExists p).filter
          fun p => !fsExists p) = [] := by
        refine List.filter_eq_nil_iff.mpr ?_
        intro p hp
        simp [hmemE p hp]
      have hnEC : (((comp.map resolvePath).filter fun p =>
            fsExists p &&
            ((sel.map resolvePath).filter fun q => fsExists q).contains p).filter
          fun p => !fsExists p) = [] := by
        refine List.filter_eq_nil_iff.mpr ?_
        intro p hp
        simp [hmemEC p hp]
      have hsecond : read_previous_selection fsExists resolvePath
          (read_previous_selection fsExists resolvePath (some (sel, comp))).store =
          ⟨(((sel.map resolvePath).filter fun p => fsExists p),
            ((comp.map resolvePath).filter fun p =>
              fsExists p &&
              ((sel.map resolvePath).filter fun q => fsExists q).contains p)),
           (read_previous_selection fsExists resolvePath (some (sel, comp))).store,
           false⟩ := by
        rw [hstore]
        show (if (((((sel.map resolvePath).filter fun p => fsExists p).map
              resolvePath).filter fun p => !fsExists p).length +
            ((((comp.map resolvePath).filter fun p =>
              fsExists p &&
              ((sel.map resolvePath).filter fun q => fsExists q).contains p).map
                resolvePath).filter fun p => !fsExists p).length > 0) then _ else _) = _
        simp only [hmapE, hmapEC, hnE, hnEC, List.length_nil, Nat.add_zero,
          gt_iff_lt, Nat.lt_irrefl, if_false]
        simp only [hfE, hfEC]
      rw [hsecond]
      refine ⟨?_, rfl, rfl, ?_, ?_⟩
      · rw [hresultE]
      · rw [hresultE]; exact hmemE
      · rw [hresultE]; exact hmemEC
    · -- nothing was pruned: the store is untouched and the second call is the first
      have hstore : (read_previous_selection fsExists resolvePath
          (some (sel, comp))).store = some (sel, comp) := by
        rw [hfirst, if_neg hrc]
      have hwrote : (read_previous_selection fsExists resolvePath
          (some (sel, comp))).wrote = false := by
        rw [hfirst, if_neg hrc]
      refine ⟨?_, ?_, ?_, ?_, ?_⟩
      · rw [hstore]
      · rw [hstore, hstore]
      · rw [hstore, hwrote]
      · rw [hresultE]; exact hmemE
      · rw [hresultE]; exact hmemEC

theorem c6_load_pruning_idempotent_witness :
    (read_previous_selection (fun p => p != "/gone.py") (fun p => p)
        (read_previous_selection (fun p => p != "/gone.py") (fun p => p)
          (some (["/a.py", "/gone.py"], ["/gone.py"]))).store).result =
      (["/a.py"], []) ∧
    (read_previous_selection (fun p => p != "/gone.py") (fun p => p)
        (read_previous_selection (fun p => p != "/gone.py") (fun p => p)
          (some (["/a.py", "/gone.py"], ["/gone.py"]))).store).wrote = false := by
  have h := c6_load_pruning_idempotent (fun p => p != "/gone.py") (fun p => p)
    (some (["/a.py", "/gone.py"], ["/gone.py"])) (fun _ => rfl)
  exact ⟨by rw [h.1]; decide, h.2.2.1⟩

/-- C8: a pattern from an ignore-pattern file in subdirectory `D` is rewritten
to `D/` + pattern when it does not begin with `/`, and to `D/` + the pattern
without its leading `/` when it does; consequently `*.log` in `pkg/.gitignore`
becomes the combined pattern `pkg/*.log`, which matches `pkg/debug.log` and not
`other/debug.log`. -/
theorem c8_gitignore_rewrite (dir line : String) (hdir : dir ≠ "") :
    (strStartsWithChar '/' line = false →
      adjust_gitignore_pattern (dir ++ "/") line = dir ++ "/" ++ line) ∧
    (strStartsWithChar '/' line = true →
      adjust_gitignore_pattern (dir ++ "/") line = dir ++ "/" ++ strDropFirst line) ∧
    parse_all_gitignores [("pkg/", ["*.log"])] = ["pkg/*.log"] ∧
    gitwild_match "pkg/*.log" "pkg/debug.log" = true ∧
    gitwild_match "pkg/*.log" "other/debug.log" = false := by
  have hne : dir ++ "/" ≠ "" := by
    intro h
    have hd := congrArg String.data h
    rw [strData_append, strData_empty] at hd
    simp at hd
  refine ⟨?_, ?_, by decide, by decide, by decide⟩
  · intro hslash
    unfold adjust_gitignore_pattern
    rw [if_pos]
    simp [hne, hslash]
  · intro hslash
    unfold adjust_gitignore_pattern
    rw [if_neg, if_pos hslash]
    simp [hslash]

theorem c8_gitignore_rewrite_witness :
    adjust_gitignore_pattern ("pkg" ++ "/") "*.log" = "pkg" ++ "/" ++ "*.log" ∧
    adjust_gitignore_pattern ("pkg" ++ "/") "/top.log" = "pkg" ++ "/" ++ "top.log" := by
  have h := c8_gitignore_rewrite "pkg" "*.log" (by decide)
  have h2 := c8_gitignore_rewrite "pkg" "/top.log" (by decide)
  refine ⟨h.1 (by decide), ?_⟩
  have := h2.2.1 (by decide)
  rw [this]
  decide

theorem single_file_iff (l : List (String × Node)) :
    folder_has_single_file l = true ↔
      (l.filter fun e => !e.2.isDir).length = 1 ∧
      (l.filter fun e => e.2.isDir).length = 0 := by
  simp [folder_has_single_file, List.countP_eq_length_filter]

theorem firstFileEntry_of_filter (l : List (String × Node)) (sk v : String)
    (h : (l.filter fun e => !e.2.isDir) = [(sk, Node.file v)]) :
    firstFileEntry l = some (sk, v) := by
  induction l with
  | nil => simp at h
  | cons kv rest ih =>
    obtain ⟨k, n⟩ := kv
    cases n with
    | file w =>
      rw [List.filter_cons_of_pos (by simp [Node.isDir])] at h
      have h1 : (k, Node.file w) = (sk, Node.file v) := by
        have := congrArg (fun x => x.headD (k, Node.file w)) h
        simpa using this
      injection h1 with hk hn
      injection hn with hw2
      rw [firstFileEntry, List.findSome?_cons]
      simp only []
      rw [hk, hw2]
    | dir sub =>
      rw [List.filter_cons_of_neg (by simp [Node.isDir])] at h
      rw [firstFileEntry, List.findSome?_cons]
      simpa [firstFileEntry] using ih h

theorem flattenFuel_eq_spec (fuel : Nat) :
    ∀ (tree : NodeMap) (pre : String) (collapsed : List String),
      flattenFuel fuel tree pre collapsed = flattenSpecFuel fuel tree pre collapsed := by
  induction fuel with
  | zero => intro tree pre collapsed; rfl
  | succ f ih =>
    intro tree pre collapsed
    simp only [flattenFuel, flattenSpecFuel]
    congr 1
    refine List.flatMap_congr ?_
    intro kv hkv
    obtain ⟨key, n⟩ := kv
    cases n with
    | file w => rfl
    | dir sub =>
      dsimp only
      by_cases hs : folder_has_single_file sub.toList = true
      · obtain ⟨h1, h0⟩ := (single_file_iff sub.toList).mp hs
        obtain ⟨e, he⟩ := List.length_eq_one.mp h1
        have hmem : e ∈ sub.toList.filter (fun x => !x.2.isDir) := by
          rw [he]; exact List.mem_singleton_self e
        have hfile : (!e.2.isDir) = true := (List.mem_filter.mp hmem).2
        obtain ⟨sk, n2⟩ := e
        cases n2 with
        | dir s2 => simp [Node.isDir] at hfile
        | file v =>
          have hcond : ((sub.toList.filter fun e => !e.2.isDir).length == 1 &&
              (sub.toList.filter fun e => e.2.isDir).length == 0) = true := by
            simp [h1, h0]
          rw [if_pos hs, if_pos hcond]
          rw [firstFileEntry_of_filter sub.toList sk v he, he]
      · have hcond : ¬ ((sub.toList.filter fun e => !e.2.isDir).length == 1 &&
            (sub.toList.filter fun e => e.2.isDir).length == 0) = true := by
          intro hc
          apply hs
          rw [single_file_iff]
          have := Bool.and_eq_true_iff.mp hc
          exact ⟨beq_iff_eq.mp this.1, beq_iff_eq.mp this.2⟩
        rw [if_neg hs, if_neg hcond]
        by_cases hc : (pre ++ key) ∈ collapsed
        · rw [if_pos hc, if_pos hc]
        · rw [if_neg hc, if_neg hc, ih]

/-- C2 fails on its own example: in the tree with `a.py`, `sub/b.py` and
`sub2/only.txt`, the subdirectory `sub` also contains exactly one file and no
subdirectories, so the flattener collapses it in display as well — the output
is `a.py`, `sub/b.py`, `sub2/only.txt` with no `sub` folder row, not the
claimed `a.py`, folder `sub`, `sub/b.py`, `sub2/only.txt`. -/
theorem c2_counterexample_example_rows :
    flatten_tree_with_folders_collapsed
      (.cons "a.py" (.file "/r/a.py")
        (.cons "sub" (.dir (.cons "b.py" (.file "/r/sub/b.py") .nil))
          (.cons "sub2" (.dir (.cons "only.txt" (.file "/r/sub2/only.txt") .nil)) .nil)))
      "" [] =
      [⟨"a.py", "a.py", false, some "/r/a.py"⟩,
       ⟨"sub/b.py", "sub/b.py", false, some "/r/sub/b.py"⟩,
       ⟨"sub2/only.txt", "sub2/only.txt", false, some "/r/sub2/only.txt"⟩] ∧
    flatten_tree_with_folders_collapsed
      (.cons "a.py" (.file "/r/a.py")
        (.cons "sub" (.dir (.cons "b.py" (.file "/r/sub/b.py") .nil))
          (.cons "sub2" (.dir (.cons "only.txt" (.file "/r/sub2/only.txt") .nil)) .nil)))
      "" [] ≠
      [⟨"a.py", "a.py", false, some "/r/a.py"⟩,
       ⟨"sub/", "sub", true, none⟩,
       ⟨"sub/b.py", "sub/b.py", false, some "/r/sub/b.py"⟩,
       ⟨"sub2/only.txt", "sub2/only.txt", false, some "/r/sub2/only.txt"⟩] := by
  decide

/-- C2 amended: the flattener agrees, for every tree, prefix and collapsed set,
with the flattener described by the specification (files first then folders at
each level, both alphabetically; single-file wrapper folders display as one file
row with the folder segment prefixed; other folders emit their row and recurse
exactly when not collapsed); and the shared sort is an alphabetical ordering of
the entries (sorted output, permutation of the input). -/
theorem c2_flatten_matches_spec_description (tree : NodeMap) (pre : String)
    (collapsed : List String) :
    flatten_tree_with_folders_collapsed tree pre collapsed =
      flattenPerSpec tree pre collapsed ∧
    (∀ l : List (String × Node),
      List.Sorted keyLe (sortByKey l) ∧ List.Perm (sortByKey l) l) :=
  ⟨flattenFuel_eq_spec tree.size tree pre collapsed,
   fun l => ⟨List.sorted_insertionSort keyLe l, List.perm_insertionSort keyLe l⟩⟩

theorem strData_slash : ("/" : String).data = ['/'] := rfl

/-- Two root-relative folder paths that are prefixes of a common path, written
as slash-free first segment plus rest, must start with the same segment. -/
theorem seg_eq_of_slash_free : ∀ (K D X Y : List Char), '/' ∉ K → '/' ∉ D →
    (K ++ '/' :: X) <+: (D ++ '/' :: Y) → K = D := by
  intro K
  induction K with
  | nil =>
    intro D X Y _ hD h
    cases D with
    | nil => rfl
    | cons c D2 =>
      obtain ⟨t, ht⟩ := h
      rw [List.nil_append, List.cons_append] at ht
      injection ht with hc _
      exact absurd (hc ▸ List.mem_cons_self c D2) hD
  | cons a K2 ih =>
    intro D X Y hK hD h
    cases D with
    | nil =>
      obtain ⟨t, ht⟩ := h
      rw [List.nil_append, List.cons_append] at ht
      injection ht with hc _
      exact absurd (hc ▸ List.mem_cons_self a K2) hK
    | cons c D2 =>
      obtain ⟨t, ht⟩ := h
      rw [List.cons_append, List.cons_append] at ht
      injection ht with hc htail
      have hK2 : '/' ∉ K2 := fun hm => hK (List.mem_cons_of_mem a hm)
      have hD2 : '/' ∉ D2 := fun hm => hD (List.mem_cons_of_mem c hm)
      have h2 : (K2 ++ '/' :: X) <+: (D2 ++ '/' :: Y) := ⟨t, htail⟩
      rw [hc, ih D2 X Y hK2 hD2 h2]

/-- Shape of a folder row path built by the flattener: prefix, first segment,
slash, rest — with the rest empty exactly for a one-segment path. -/
theorem pathUnder_cons_data : ∀ (rest : List String) (pre k : String),
    ∃ T, (pathUnder pre (k :: rest) ++ "/").data =
        pre.data ++ (k.data ++ '/' :: T) ∧ (T = [] ↔ rest = []) := by
  intro rest
  induction rest with
  | nil =>
    intro pre k
    refine ⟨[], ?_, by simp⟩
    show ((pre ++ k) ++ "/").data = _
    rw [strData_append, strData_append, strData_slash, List.append_assoc]
  | cons k1 rest2 ih =>
    intro pre k
    obtain ⟨T2, hT2, _⟩ := ih (pre ++ k ++ "/") k1
    refine ⟨k1.data ++ '/' :: T2, ?_, ?_⟩
    · show (pathUnder (pre ++ k ++ "/") (k1 :: rest2) ++ "/").data = _
      rw [hT2, strData_append, strData_append, strData_slash]
      simp [List.append_assoc]
    · constructor
      · intro h
        exact absurd h (by simp)
      · intro h
        cases h

theorem prefix_data_append (pre rest : String) : pre.data <+: (pre ++ rest).data := by
  rw [strData_append]
  exact List.prefix_append _ _

theorem prefix_data_append2 (pre k s : String) :
    pre.data <+: ((pre ++ k) ++ s).data :=
  List.IsPrefix.trans (prefix_data_append pre k) (prefix_data_append (pre ++ k) s)

/-- Every row the flattener emits for subtree prefix `pre` has a row path that
starts with `pre`. -/
theorem flattenFuel_rowPath_pre : ∀ (fuel : Nat) (t : NodeMap) (pre : String)
    (c : List String) (r : DisplayRow), r ∈ flattenFuel fuel t pre c →
    pre.data <+: r.rowPath.data := by
  intro fuel
  induction fuel with
  | zero => intro t pre c r hr; cases hr
  | succ f ih =>
    intro t pre c r hr
    simp only [flattenFuel] at hr
    rcases List.mem_append.mp hr with hfile | hdir
    · obtain ⟨kv, _, hkv⟩ := List.mem_map.mp hfile
      rw [← hkv]
      exact prefix_data_append pre kv.1
    · obtain ⟨kv, _, hkv⟩ := List.mem_flatMap.mp hdir
      obtain ⟨key, n⟩ := kv
      cases n with
      | file w => cases hkv
      | dir sub =>
        dsimp only at hkv
        by_cases hsf : folder_has_single_file sub.toList = true
        · rw [if_pos hsf] at hkv
          cases hfe : firstFileEntry sub.toList with
          | none => rw [hfe] at hkv; cases hkv
          | some sv =>
            rw [hfe] at hkv
            obtain ⟨sk, v⟩ := sv
            have hreq : r =
                ⟨pre ++ key ++ "/" ++ sk, pre ++ key ++ "/" ++ sk, false, some v⟩ := by
              simpa using hkv
            rw [hreq]
            show pre.data <+: (((pre ++ key) ++ "/") ++ sk).data
            exact List.IsPrefix.trans (prefix_data_append2 pre key "/")
              (prefix_data_append _ sk)
        · rw [if_neg hsf] at hkv
          rcases List.mem_cons.mp hkv with hr1 | hr2
          · rw [hr1]
            exact prefix_data_append pre key
          · by_cases hcol : (pre ++ key) ∈ c
            · rw [if_pos hcol] at hr2; cases hr2
            · rw [if_neg hcol] at hr2
              exact List.IsPrefix.trans (prefix_data_append2 pre key "/")
                (ih sub ((pre ++ key) ++ "/") c r hr2)

/-- Collapsed paths that do not lie under the current prefix never affect the
flattener below that prefix. -/
theorem flattenFuel_collapse_irrelevant : ∀ (fuel : Nat) (t : NodeMap) (pre : String)
    (c : List String), (∀ q ∈ c, ¬ pre.data <+: q.data) →
    flattenFuel fuel t pre c = flattenFuel fuel t pre [] := by
  intro fuel
  induction fuel with
  | zero => intro t pre c _; rfl
  | succ f ih =>
    intro t pre c h
    simp only [flattenFuel]
    congr 1
    refine List.flatMap_congr ?_
    intro kv _
    obtain ⟨key, n⟩ := kv
    cases n with
    | file w => rfl
    | dir sub =>
      dsimp only
      by_cases hsf : folder_has_single_file sub.toList = true
      · rw [if_pos hsf, if_pos hsf]
      · rw [if_neg hsf, if_neg hsf]
        congr 1
        have hnc : (pre ++ key) ∉ c := fun hmem =>
          h _ hmem (prefix_data_append pre key)
        rw [if_neg hnc, if_neg (by simp : (pre ++ key) ∉ ([] : List String))]
        refine ih sub ((pre ++ key) ++ "/") c ?_
        intro q hq hpre
        exact h q hq (List.IsPrefix.trans (prefix_data_append2 pre key "/") hpre)

theorem keys_of_mem : ∀ (t : NodeMap) (k : String) (n : Node),
    (k, n) ∈ t.toList → k ∈ t.keys
  | .nil, k, n, h => by simp [NodeMap.toList] at h
  | .cons k0 n0 rest, k, n, h => by
    have h2 : k = k0 ∧ n = n0 ∨ (k, n) ∈ rest.toList := by
      simpa [NodeMap.toList] using h
    rcases h2 with ⟨hk, _⟩ | h1
    · rw [NodeMap.keys, hk]
      exact List.mem_cons_self _ _
    · exact List.mem_cons_of_mem _ (keys_of_mem rest k n h1)

theorem valid_head_parts (k0 : String) (n0 : Node) (rest : NodeMap)
    (h : (NodeMap.cons k0 n0 rest).valid = true) :
    (NodeMap.keys rest).contains k0 = false ∧ k0.data.contains '/' = false ∧
    rest.valid = true ∧ (∀ sub, n0 = Node.dir sub → sub.valid = true) := by
  cases n0 with
  | file w =>
    rw [NodeMap.valid] at h
    rcases Bool.and_eq_true_iff.mp h with ⟨h1, h3⟩
    rcases Bool.and_eq_true_iff.mp h1 with ⟨h1a, h1b⟩
    refine ⟨by simpa using h1a, by simpa using h1b, h3, ?_⟩
    intro sub hsub
    cases hsub
  | dir s0 =>
    rw [NodeMap.valid] at h
    rcases Bool.and_eq_true_iff.mp h with ⟨h1, h4⟩
    rcases Bool.and_eq_true_iff.mp h1 with ⟨h2, h3⟩
    rcases Bool.and_eq_true_iff.mp h2 with ⟨h2a, h2b⟩
    refine ⟨by simpa using h2a, by simpa using h2b, h4, ?_⟩
    intro sub hsub
    injection hsub with he
    rw [← he]
    exact h3

theorem slash_free_of_mem : ∀ (t : NodeMap), t.valid = true →
    ∀ (k : String) (n : Node), (k, n) ∈ t.toList → '/' ∉ k.data
  | .nil, _, k, n, h => by simp [NodeMap.toList] at h
  | .cons k0 n0 rest, hv, k, n, h => by
    obtain ⟨_, hslash, hrest, _⟩ := valid_head_parts k0 n0 rest hv
    have h2 : k = k0 ∧ n = n0 ∨ (k, n) ∈ rest.toList := by
      simpa [NodeMap.toList] using h
    rcases h2 with ⟨hk, _⟩ | h1
    · rw [hk]
      have : '/' ∉ k0.data := by simpa using hslash
      exact this
    · exact slash_free_of_mem rest hrest k n h1

theorem valid_sub_of_mem : ∀ (t : NodeMap), t.valid = true →
    ∀ (k : String) (sub : NodeMap), (k, Node.dir sub) ∈ t.toList → sub.valid = true
  | .nil, _, k, sub, h => by simp [NodeMap.toList] at h
  | .cons k0 n0 rest, hv, k, sub, h => by
    obtain ⟨_, _, hrest, hsub⟩ := valid_head_parts k0 n0 rest hv
    have h2 : k = k0 ∧ Node.dir sub = n0 ∨ (k, Node.dir sub) ∈ rest.toList := by
      simpa [NodeMap.toList] using h
    rcases h2 with ⟨_, hn⟩ | h1
    · exact hsub sub hn.symm
    · exact valid_sub_of_mem rest hrest k sub h1

theorem lookup_of_mem_valid : ∀ (t : NodeMap), t.valid = true →
    ∀ (k : String) (n : Node), (k, n) ∈ t.toList → lookupNode t k = some n
  | .nil, _, k, n, h => by simp [NodeMap.toList] at h
  | .cons k0 n0 rest, hv, k, n, h => by
    obtain ⟨hdup, _, hrest, _⟩ := valid_head_parts k0 n0 rest hv
    have h2 : k = k0 ∧ n = n0 ∨ (k, n) ∈ rest.toList := by
      simpa [NodeMap.toList] using h
    rcases h2 with ⟨hk, hn⟩ | h1
    · subst hk
      subst hn
      simp [lookupNode]
    · have hkne : ¬ (k0 == k) = true := by
        intro he
        have hke : k0 = k := by simpa using he
        have hmem : k0 ∈ NodeMap.keys rest := hke ▸ keys_of_mem rest k n h1
        have : k0 ∉ NodeMap.keys rest := by simpa using hdup
        exact this hmem
      rw [lookupNode, if_neg hkne]
      exact lookup_of_mem_valid rest hrest k n h1

theorem mem_toList_of_lookup : ∀ (t : NodeMap) (k : String) (n : Node),
    lookupNode t k = some n → (k, n) ∈ t.toList
  | .nil, k, n, h => by simp [lookupNode] at h
  | .cons k0 n0 rest, k, n, h => by
    rw [lookupNode] at h
    by_cases hk : k0 = k
    · rw [if_pos (by simpa using hk)] at h
      injection h with hn
      rw [NodeMap.toList, ← hk, hn]
      exact List.mem_cons_self _ _
    · rw [if_neg (by simpa using hk)] at h
      rw [NodeMap.toList]
      exact List.mem_cons_of_mem _ (mem_toList_of_lookup rest k n h)

theorem not_single_of_lookup_dir (t : NodeMap) (k : String) (s : NodeMap)
    (h : lookupNode t k = some (Node.dir s)) :
    folder_has_single_file t.toList = false := by
  have hmem : (k, Node.dir s) ∈ t.toList := mem_toList_of_lookup t k (Node.dir s) h
  have hpos : 0 < t.toList.countP (fun kv => kv.2.isDir) := by
    rw [List.countP_pos_iff]
    exact ⟨(k, Node.dir s), hmem, by simp [Node.isDir]⟩
  unfold folder_has_single_file
  have hz : (t.toList.countP (fun kv => kv.2.isDir) == 0) = false := by
    simp only [beq_eq_false_iff_ne, ne_eq]
    omega
  rw [hz, Bool.and_false]

theorem data_two_assoc (pre d : String) :
    ((pre ++ d) ++ "/").data = pre.data ++ (d.data ++ '/' :: []) := by
  rw [strData_append, strData_append, strData_slash, List.append_assoc]

theorem data_three_assoc (pre d sk : String) :
    (((pre ++ d) ++ "/") ++ sk).data = pre.data ++ (d.data ++ '/' :: sk.data) := by
  rw [strData_append, strData_append, strData_append, strData_slash]
  simp [List.append_assoc]

theorem bnot_isPrefixOf_eq_true {X Y : List Char} (h : ¬ X <+: Y) :
    (!(X.isPrefixOf Y)) = true := by
  cases hb : X.isPrefixOf Y
  · rfl
  · exact absurd (List.isPrefixOf_iff_prefix.mp hb) h

theorem bnot_isPrefixOf_eq_false {X Y : List Char} (h : X <+: Y) :
    (!(X.isPrefixOf Y)) = false := by
  rw [List.isPrefixOf_iff_prefix.mpr h]
  rfl

/-- A collapsed-folder path never reaches into a sibling entry whose name is
slash-free: `pre ++ k ++ "/" ++ …` is no prefix of `pre ++ nm`. -/
theorem not_seg_prefix_plain (pre k nm : String) (T : List Char)
    (hnm : '/' ∉ nm.data) :
    ¬ (pre.data ++ (k.data ++ '/' :: T)) <+: (pre ++ nm).data := by
  rw [strData_append]
  intro h
  have h2 : (k.data ++ '/' :: T) <+: nm.data :=
    (List.prefix_append_right_inj pre.data).mp h
  obtain ⟨t2, ht2⟩ := h2
  apply hnm
  rw [← ht2]
  simp

/-- A folder path of first segment `k` is no prefix of anything below a
different first segment `d`. -/
theorem not_seg_prefix_under (pre k d : String) (T Y target : List Char)
    (hk : '/' ∉ k.data) (hd : '/' ∉ d.data) (hne : d ≠ k)
    (hpre2 : (pre.data ++ (d.data ++ '/' :: Y)) <+: target) :
    ¬ (pre.data ++ (k.data ++ '/' :: T)) <+: target := by
  intro hpre1
  rcases List.prefix_or_prefix_of_prefix hpre1 hpre2 with h | h
  · have h2 := (List.prefix_append_right_inj pre.data).mp h
    exact hne (String.ext (seg_eq_of_slash_free k.data d.data T Y hk hd h2)).symm
  · have h2 := (List.prefix_append_right_inj pre.data).mp h
    exact hne (String.ext (seg_eq_of_slash_free d.data k.data Y T hd hk h2))

/-- A folder path extended by a slash is no prefix of the folder path itself. -/
theorem not_seg_prefix_self (pre k : String) (T : List Char) :
    ¬ (pre.data ++ (k.data ++ '/' :: T)) <+: (pre ++ k).data := by
  rw [strData_append]
  intro h
  have h2 : (k.data ++ '/' :: T) <+: k.data :=
    (List.prefix_append_right_inj pre.data).mp h
  have := h2.length_le
  simp [List.length_append] at this

/-- Collapsing exactly the folder at `segs` (not a single-file wrapper) removes
from the flattened rows precisely the rows strictly below that folder. -/
theorem flattenFuel_collapse_one : ∀ (segs : List String) (fuel : Nat) (t : NodeMap)
    (pre : String) (sub : NodeMap),
    t.valid = true → subtreeAt t segs = some sub → segs ≠ [] →
    folder_has_single_file sub.toList = false →
    flattenFuel fuel t pre [pathUnder pre segs] =
      (flattenFuel fuel t pre []).filter
        (fun r => !((pathUnder pre segs ++ "/").data.isPrefixOf r.rowPath.data)) := by
  intro segs
  induction segs with
  | nil => intro fuel t pre sub _ _ hne _; exact absurd rfl hne
  | cons k rest ih =>
    intro fuel t pre sub hvalid hsub _ hnotsingle
    have hlook : ∃ s0, lookupNode t k = some (Node.dir s0) ∧
        subtreeAt s0 rest = some sub := by
      rw [subtreeAt] at hsub
      rcases hl : lookupNode t k with _ | n
      · rw [hl] at hsub; cases hsub
      · cases n with
        | file w => rw [hl] at hsub; cases hsub
        | dir s0 => rw [hl] at hsub; exact ⟨s0, rfl, hsub⟩
    obtain ⟨s0, hl, hsub0⟩ := hlook
    obtain ⟨T, hT, hTiff⟩ := pathUnder_cons_data rest pre k
    have hkfree : '/' ∉ k.data :=
      slash_free_of_mem t hvalid k (Node.dir s0) (mem_toList_of_lookup t k _ hl)
    have hs0valid : s0.valid = true :=
      valid_sub_of_mem t hvalid k s0 (mem_toList_of_lookup t k _ hl)
    have hs0single : folder_has_single_file s0.toList = false := by
      cases rest with
      | nil =>
        rw [subtreeAt] at hsub0
        injection hsub0 with he
        rw [he]
        exact hnotsingle
      | cons k1 rest2 =>
        rw [subtreeAt] at hsub0
        rcases hl1 : lookupNode s0 k1 with _ | n1
        · rw [hl1] at hsub0; cases hsub0
        · cases n1 with
          | file w => rw [hl1] at hsub0; cases hsub0
          | dir s1 => exact not_single_of_lookup_dir s0 k1 s1 hl1
    cases fuel with
    | zero => rfl
    | succ f =>
      simp only [flattenFuel]
      rw [List.filter_append]
      simp only [hT]
      have hfiles : ((sortByKey (t.toList.filter fun kv => !kv.2.isDir)).map
            (fun kv => (⟨pre ++ kv.1, pre ++ kv.1, false, some kv.2.fileAbs⟩ :
              DisplayRow))).filter
            (fun r => !((pre.data ++ (k.data ++ '/' :: T)).isPrefixOf
              r.rowPath.data)) =
          (sortByKey (t.toList.filter fun kv => !kv.2.isDir)).map
            (fun kv => ⟨pre ++ kv.1, pre ++ kv.1, false, some kv.2.fileAbs⟩) := by
        refine List.filter_eq_self.mpr ?_
        intro r hr
        obtain ⟨kv, hkvmem, hkv⟩ := List.mem_map.mp hr
        have hkvt : kv ∈ t.toList :=
          (List.mem_filter.mp ((List.mem_insertionSort keyLe).mp hkvmem)).1
        have hnm : '/' ∉ kv.1.data := slash_free_of_mem t hvalid kv.1 kv.2 hkvt
        rw [← hkv]
        exact bnot_isPrefixOf_eq_true (not_seg_prefix_plain pre k kv.1 T hnm)
      rw [hfiles]
      congr 1
      rw [List.filter_flatMap]
      refine List.flatMap_congr ?_
      intro kv hkvmem
      obtain ⟨d, n⟩ := kv
      cases n with
      | file w => rfl
      | dir s =>
        dsimp only
        have hdmem : (d, Node.dir s) ∈ t.toList :=
          (List.mem_filter.mp ((List.mem_insertionSort keyLe).mp hkvmem)).1
        have hdfree : '/' ∉ d.data := slash_free_of_mem t hvalid d _ hdmem
        by_cases hdk : d = k
        · -- this entry is the collapsed folder itself
          subst hdk
          have hds : Node.dir s = Node.dir s0 := by
            have h2 := lookup_of_mem_valid t hvalid d _ hdmem
            rw [hl] at h2
            injection h2 with hval
            exact hval.symm
          have hss0 : s = s0 := by injection hds
          subst hss0
          have hnotT : ¬ (folder_has_single_file s.toList = true) := by
            rw [hs0single]
            simp
          rw [if_neg hnotT, if_neg hnotT]
          cases rest with
          | nil =>
            have hTnil : T = [] := hTiff.mpr rfl
            subst hTnil
            have hmemF : (pre ++ d) ∈ [pathUnder pre [d]] :=
              List.mem_singleton_self (pre ++ d)
            rw [if_pos hmemF,
              if_neg (by simp : (pre ++ d) ∉ ([] : List String))]
            simp only [List.filter_cons]
            rw [bnot_isPrefixOf_eq_true (not_seg_prefix_self pre d [])]
            simp only [if_true]
            congr 1
            symm
            refine List.filter_eq_nil_iff.mpr ?_
            intro r hr
            have hpre := flattenFuel_rowPath_pre f s ((pre ++ d) ++ "/") [] r hr
            rw [data_two_assoc] at hpre
            rw [bnot_isPrefixOf_eq_false hpre]
            simp
          | cons k1 rest2 =>
            have hTne : T ≠ [] := fun hTnil => by cases hTiff.mp hTnil
            have hnotmemF : (pre ++ d) ∉ [pathUnder pre (d :: k1 :: rest2)] := by
              simp only [List.mem_singleton]
              intro he
              have hd3 : ((pre ++ d) ++ "/").data =
                  (pathUnder pre (d :: k1 :: rest2) ++ "/").data := by rw [he]
              rw [hT, data_two_assoc] at hd3
              have h4 := List.append_cancel_left hd3
              have h5 := List.append_cancel_left h4
              injection h5 with _ h6
              exact hTne h6.symm
            rw [if_neg hnotmemF,
              if_neg (by simp : (pre ++ d) ∉ ([] : List String))]
            simp only [List.filter_cons]
            rw [bnot_isPrefixOf_eq_true (not_seg_prefix_self pre d T)]
            simp only [if_true]
            congr 1
            have hih : flattenFuel f s ((pre ++ d) ++ "/")
                [pathUnder ((pre ++ d) ++ "/") (k1 :: rest2)] =
                (flattenFuel f s ((pre ++ d) ++ "/") []).filter
                  (fun r => !((pathUnder ((pre ++ d) ++ "/") (k1 :: rest2) ++
                    "/").data.isPrefixOf r.rowPath.data)) :=
              ih f s ((pre ++ d) ++ "/") sub hs0valid hsub0 (by simp) hnotsingle
            have hpath : (pathUnder ((pre ++ d) ++ "/") (k1 :: rest2) ++ "/").data =
                pre.data ++ (d.data ++ '/' :: T) := hT
            rw [← hpath]
            exact hih
        · -- a sibling of the collapsed folder
          by_cases hsf : folder_has_single_file s.toList = true
          · rw [if_pos hsf, if_pos hsf]
            cases hfe : firstFileEntry s.toList with
            | none => rfl
            | some sv =>
              obtain ⟨sk, v⟩ := sv
              dsimp only
              simp only [List.filter_cons, List.filter_nil]
              have hkeep : ¬ (pre.data ++ (k.data ++ '/' :: T)) <+:
                  (((pre ++ d) ++ "/") ++ sk).data := by
                rw [data_three_assoc]
                exact not_seg_prefix_under pre k d T sk.data _ hkfree hdfree hdk
                  (List.prefix_refl _)
              rw [bnot_isPrefixOf_eq_true hkeep]
              simp only [if_true]
          · rw [if_neg hsf, if_neg hsf]
            have hnotmem : (pre ++ d) ∉ [pathUnder pre (k :: rest)] := by
              simp only [List.mem_singleton]
              intro he
              have hd3 : ((pre ++ d) ++ "/").data =
                  (pathUnder pre (k :: rest) ++ "/").data := by rw [he]
              rw [hT, data_two_assoc] at hd3
              have h4 := List.append_cancel_left hd3
              exact hdk (String.ext
                (seg_eq_of_slash_free d.data k.data [] T hdfree hkfree ⟨[], by
                  rw [List.append_nil]; exact h4⟩))
            rw [if_neg hnotmem,
              if_neg (by simp : (pre ++ d) ∉ ([] : List String))]
            have hirr : flattenFuel f s ((pre ++ d) ++ "/")
                [pathUnder pre (k :: rest)] =
                flattenFuel f s ((pre ++ d) ++ "/") [] := by
              refine flattenFuel_collapse_irrelevant f s ((pre ++ d) ++ "/")
                [pathUnder pre (k :: rest)] ?_
              intro q hq hpre
              rw [List.mem_singleton] at hq
              subst hq
              have hpre2 : ((pre ++ d) ++ "/").data <+:
                  (pathUnder pre (k :: rest) ++ "/").data :=
                List.IsPrefix.trans hpre (prefix_data_append _ "/")
              rw [hT, data_two_assoc] at hpre2
              have h2 := (List.prefix_append_right_inj pre.data).mp hpre2
              exact hdk (String.ext
                (seg_eq_of_slash_free d.data k.data [] T hdfree hkfree h2))
            rw [hirr]
            simp only [List.filter_cons]
            rw [bnot_isPrefixOf_eq_true (not_seg_prefix_plain pre k d T hdfree)]
            simp only [if_true]
            congr 1
            symm
            refine List.filter_eq_self.mpr ?_
            intro r hr
            have hpre := flattenFuel_rowPath_pre f s ((pre ++ d) ++ "/") [] r hr
            rw [data_two_assoc] at hpre
            exact bnot_isPrefixOf_eq_true
              (not_seg_prefix_under pre k d T [] r.rowPath.data hkfree hdfree hdk hpre)

/-- C3 fails as stated: for a folder that is a single-file wrapper the claim is
wrong.  In the tree containing only `sub2/only.txt`, the folder `sub2` is
present, but flattening with `{sub2}` collapsed still shows the display row
`sub2/only.txt` (single-file wrappers ignore the collapsed set and have no
folder row of their own), while the claimed filter deletes that row as a strict
descendant of `sub2`. -/
theorem c3_counterexample_single_file_folder :
    (subtreeAt
      (.cons "sub2" (.dir (.cons "only.txt" (.file "/r/sub2/only.txt") .nil)) .nil)
      ["sub2"]).isSome = true ∧
    flatten_tree_with_folders_collapsed
      (.cons "sub2" (.dir (.cons "only.txt" (.file "/r/sub2/only.txt") .nil)) .nil)
      "" ["sub2"] ≠
      (flatten_tree_with_folders_collapsed
        (.cons "sub2" (.dir (.cons "only.txt" (.file "/r/sub2/only.txt") .nil)) .nil)
        "" []).filter
        (fun r => r.rowPath == "sub2" || !(isUnderFolder "sub2" r.rowPath)) := by
  decide

/-- C3 amended: for a well-formed tree (unique, separator-free entry names per
level) and a folder at segment path `segs` that is not a single-file wrapper,
flattening with exactly that folder collapsed equals the fully-expanded row
list with every row whose row path is the folder or a strict descendant of it
deleted, the folder's own row being kept. -/
theorem c3_collapse_filter_amended (tree : NodeMap) (segs : List String)
    (sub : NodeMap) (hvalid : tree.valid = true) (hsegs : segs ≠ [])
    (hsub : subtreeAt tree segs = some sub)
    (hnotsingle : folder_has_single_file sub.toList = false) :
    flatten_tree_with_folders_collapsed tree "" [pathUnder "" segs] =
      (flatten_tree_with_folders_collapsed tree "" []).filter
        (fun r => r.rowPath == pathUnder "" segs ||
          !(isUnderFolder (pathUnder "" segs) r.rowPath)) := by
  have hpred : ∀ r : DisplayRow,
      (r.rowPath == pathUnder "" segs ||
        !(isUnderFolder (pathUnder "" segs) r.rowPath)) =
      !((pathUnder "" segs ++ "/").data.isPrefixOf r.rowPath.data) := by
    intro r
    unfold isUnderFolder
    by_cases hu : (pathUnder "" segs ++ "/").data.isPrefixOf r.rowPath.data = true
    · rw [hu]
      have hne : r.rowPath ≠ pathUnder "" segs := by
        intro he
        have hp := List.isPrefixOf_iff_prefix.mp hu
        rw [he] at hp
        have hlen := hp.length_le
        rw [strData_append, strData_slash, List.length_append] at hlen
        simp at hlen
      rw [beq_eq_false_iff_ne.mpr hne]
      rfl
    · have hu2 := eq_false_of_ne_true hu
      rw [hu2]
      simp
  rw [List.filter_congr (fun r _ => hpred r)]
  exact flattenFuel_collapse_one segs tree.size tree "" sub hvalid hsub
    hsegs hnotsingle

theorem c3_collapse_filter_amended_witness :
    flatten_tree_with_folders_collapsed
      (.cons "pkg" (.dir (.cons "a.py" (.file "/p/a.py")
        (.cons "b.py" (.file "/p/b.py") .nil))) .nil)
      "" [pathUnder "" ["pkg"]] =
      (flatten_tree_with_folders_collapsed
        (.cons "pkg" (.dir (.cons "a.py" (.file "/p/a.py")
          (.cons "b.py" (.file "/p/b.py") .nil))) .nil)
        "" []).filter
        (fun r => r.rowPath == pathUnder "" ["pkg"] ||
          !(isUnderFolder (pathUnder "" ["pkg"]) r.rowPath)) ∧
    flatten_tree_with_folders_collapsed
      (.cons "pkg" (.dir (.cons "a.py" (.file "/p/a.py")
        (.cons "b.py" (.file "/p/b.py") .nil))) .nil)
      "" [pathUnder "" ["pkg"]] = [⟨"pkg/", "pkg", true, none⟩] :=
  ⟨c3_collapse_filter_amended
    (.cons "pkg" (.dir (.cons "a.py" (.file "/p/a.py")
      (.cons "b.py" (.file "/p/b.py") .nil))) .nil)
    ["pkg"]
    (.cons "a.py" (.file "/p/a.py") (.cons "b.py" (.file "/p/b.py") .nil))
    (by decide) (by decide) rfl (by decide),
   by decide⟩
